import Mathlib

/-!
Verification of the expression algebra and sub-register normalization layer
of a binary-analysis intermediate representation.

The definitions below are a shallow embedding of
`src/cwe_checker_rs/src/intermediate_representation/expression.rs`.
The source type ByteSize (a non-negative count of bytes, doubling as a size
and an offset, per spec section 3) is modelled as `Nat`, with truncated
natural subtraction standing for the subtraction that never underflows in
valid programs; fallible operations
(Rust `unwrap` on a register-catalog lookup, which panics when the entry
is missing) are modelled with `Option`, `none` standing for the panic.
-/

namespace CweChecker

/-- Modelled from the spec (§3): conversion from a bit width to a `Nat`
rounds up to the nearest whole byte. -/
def bitsToBytes (bits : Nat) : Nat := (bits + 7) / 8

/-- Modelled from the spec (§3): conversion from a `Nat` to a bit width. -/
def bytesToBits (bytes : Nat) : Nat := bytes * 8

/-- Modelled from the spec (§3): a Bitvector is a fixed-width bit pattern that
exposes its width and has all-zero and integer-one constructors of a given
width. Only those features are relied on by the expression layer. -/
structure Bitvector where
  width : Nat
  value : Nat
deriving DecidableEq, Repr

/-- The all-zero bitvector of the given bit width. -/
def Bitvector.zero (w : Nat) : Bitvector := ⟨w, 0⟩

/-- The integer-one bitvector of the given bit width. -/
def Bitvector.one (w : Nat) : Bitvector := ⟨w, 1⟩

/-- Modelled from the spec (§3): a named register or temporary of known size. -/
structure Variable where
  name : String
  size : Nat
  is_temp : Bool
deriving DecidableEq, Repr

/-- Modelled from the spec (§3, §6): one register-catalog entry, mapping a
register name to its base register, its size and its least-significant-byte
offset inside the base register. -/
structure RegisterProperties where
  register : String
  base_register : String
  size : Nat
  lsb : Nat
deriving DecidableEq, Repr

/-- The register catalog, modelled as an association list from register name
to its properties (the Rust code receives a `HashMap`). -/
abbrev RegisterMap := List (String × RegisterProperties)

/-- Catalog lookup: first entry with the given key, if any. -/
def rmLookup : RegisterMap → String → Option RegisterProperties
  | [], _ => none
  | (k, r) :: rest, n => if k = n then some r else rmLookup rest n

/-- The type/mnemonic of a binary operation. -/
inductive BinOpType where
  | Piece
  | IntEqual
  | IntNotEqual
  | IntLess
  | IntSLess
  | IntLessEqual
  | IntSLessEqual
  | IntAdd
  | IntSub
  | IntCarry
  | IntSCarry
  | IntSBorrow
  | IntXOr
  | IntAnd
  | IntOr
  | IntLeft
  | IntRight
  | IntSRight
  | IntMult
  | IntDiv
  | IntRem
  | IntSDiv
  | IntSRem
  | BoolXOr
  | BoolAnd
  | BoolOr
  | FloatEqual
  | FloatNotEqual
  | FloatLess
  | FloatLessEqual
  | FloatAdd
  | FloatSub
  | FloatMult
  | FloatDiv
deriving DecidableEq, Repr

/-- The type/mnemonic of a typecast. -/
inductive CastOpType where
  | IntZExt
  | IntSExt
  | Int2Float
  | Float2Float
  | Trunc
deriving DecidableEq, Repr

/-- The type/mnemonic of an unary operation. -/
inductive UnOpType where
  | IntNegate
  | Int2Comp
  | BoolNegate
  | FloatNegate
  | FloatAbs
  | FloatSqrt
  | FloatCeil
  | FloatFloor
  | FloatRound
  | FloatNaN
deriving DecidableEq, Repr

/-- A side-effect-free computation tree, as in the source `Expression` enum. -/
inductive Expression where
  | Var (var : Variable)
  | Const (bv : Bitvector)
  | BinOp (op : BinOpType) (lhs : Expression) (rhs : Expression)
  | UnOp (op : UnOpType) (arg : Expression)
  | Cast (op : CastOpType) (size : Nat) (arg : Expression)
  | Unknown (description : String) (size : Nat)
  | Subpiece (low_byte : Nat) (size : Nat) (arg : Expression)
deriving DecidableEq, Repr

/-- Return the size (in bytes) of the result value of the expression. -/
def Expression.bytesize : Expression → Nat
  | .Var var => var.size
  | .Const bv => bitsToBytes bv.width
  | .BinOp op lhs rhs =>
      match op with
      | .Piece => lhs.bytesize + rhs.bytesize
      | .IntEqual | .IntNotEqual | .IntLess | .IntSLess | .IntLessEqual | .IntSLessEqual
      | .IntCarry | .IntSCarry | .IntSBorrow | .BoolXOr | .BoolOr | .BoolAnd | .FloatEqual
      | .FloatNotEqual | .FloatLess | .FloatLessEqual => 1
      | .IntAdd | .IntSub | .IntAnd | .IntOr | .IntXOr | .IntLeft | .IntRight | .IntSRight
      | .IntMult | .IntDiv | .IntRem | .IntSDiv | .IntSRem | .FloatAdd | .FloatSub
      | .FloatMult | .FloatDiv => lhs.bytesize
  | .UnOp op arg =>
      match op with
      | .FloatNaN => 1
      | _ => arg.bytesize
  | .Cast _ size _ => size
  | .Unknown _ size => size
  | .Subpiece _ size _ => size

/-- Substitute some trivial expressions with their result, bottom-up and in
one pass, as in the source. -/
def Expression.substitute_trivial_operations : Expression → Expression
  | .Var v => .Var v
  | .Const c => .Const c
  | .Unknown d s => .Unknown d s
  | .Subpiece low_byte size arg =>
      let arg' := arg.substitute_trivial_operations
      if low_byte = 0 ∧ size = arg'.bytesize then arg'
      else .Subpiece low_byte size arg'
  | .Cast op size arg =>
      let arg' := arg.substitute_trivial_operations
      if (op = .IntSExt ∨ op = .IntZExt) ∧ size = arg'.bytesize then arg'
      else .Cast op size arg'
  | .UnOp op arg => .UnOp op arg.substitute_trivial_operations
  | .BinOp op lhs rhs =>
      let lhs' := lhs.substitute_trivial_operations
      let rhs' := rhs.substitute_trivial_operations
      if lhs' = rhs' then
        match op with
        | .BoolAnd | .BoolOr | .IntAnd | .IntOr => lhs'
        | .BoolXOr | .IntXOr => .Const (Bitvector.zero (bytesToBits lhs'.bytesize))
        | .IntEqual | .IntLessEqual | .IntSLessEqual =>
            .Const (Bitvector.one (bytesToBits 1))
        | .IntNotEqual | .IntLess | .IntSLess =>
            .Const (Bitvector.zero (bytesToBits 1))
        | _ => .BinOp op lhs' rhs'
      else .BinOp op lhs' rhs'

/-- This function checks whether the following instruction is a zero extension
of the currently overwritten sub register: true iff the expression is an
`IntZExt` cast of a bare variable. -/
def Expression.check_for_zero_extension : Expression → Bool
  | .Cast op _ arg =>
      match op with
      | .IntZExt =>
          match arg with
          | .Var _ => true
          | _ => false
      | _ => false
  | _ => false

/-- Modelled from the spec (§3, §4.3): an assignment term pairs an output
Variable with the Expression producing its value. Non-assignment term kinds
(loads, stores) are never matched by the normalizer and are collapsed into a
single constructor. -/
inductive Def where
  | Assign (var : Variable) (value : Expression)
  | Other
deriving DecidableEq, Repr

/-- Modelled from the spec (§3): a lifted term wraps its content; only the
content is inspected by the normalization layer. -/
structure Term (T : Type) where
  term : T
deriving DecidableEq, Repr

/-- This function creates a SUBPIECE expression from a sub_register containing
the corresponding base register. The Rust code unwraps the catalog lookup of
the base register and panics when it is missing; the panic is modelled as
`none`. -/
def Expression.create_subpiece_from_sub_register (base : String) (size : Nat)
    (lsb : Nat) (register_map : RegisterMap) : Option Expression :=
  match rmLookup register_map base with
  | some base_props =>
      some (.Subpiece lsb size (.Var ⟨base, base_props.size, false⟩))
  | none => none

/-- This function recursively iterates into the expression and checks whether
a sub register was used. If so, the sub register is turned into a SUBPIECE of
the corresponding base register. A missing base-register catalog entry is a
panic in the source, modelled as `none`. -/
def Expression.check_for_sub_register (e : Expression) (register_map : RegisterMap) :
    Option Expression :=
  match e with
  | .BinOp op lhs rhs =>
      match lhs.check_for_sub_register register_map, rhs.check_for_sub_register register_map with
      | some lhs', some rhs' => some (.BinOp op lhs' rhs')
      | _, _ => none
  | .UnOp op arg =>
      Option.map (Expression.UnOp op) (arg.check_for_sub_register register_map)
  | .Cast op size arg =>
      Option.map (Expression.Cast op size) (arg.check_for_sub_register register_map)
  | .Subpiece low_byte size arg =>
      Option.map (Expression.Subpiece low_byte size) (arg.check_for_sub_register register_map)
  | .Var var =>
      match rmLookup register_map var.name with
      | some register =>
          if var.name ≠ register.base_register then
            Expression.create_subpiece_from_sub_register
              register.base_register register.size register.lsb register_map
          else some (.Var var)
      | none => some (.Var var)
  | .Const c => some (.Const c)
  | .Unknown d s => some (.Unknown d s)

/-- Reconstruction of the full base-register value: a `Piece` concatenation of
the new sub-value with the untouched surrounding bytes of the base register. -/
def Expression.piece_two_expressions_together (e : Expression)
    (output_base_register : RegisterProperties)
    (sub_register : RegisterProperties) : Expression :=
  let base_size : Nat := output_base_register.size
  let base_name : String := output_base_register.register
  let sub_size : Nat := sub_register.size
  let sub_lsb : Nat := sub_register.lsb
  let base_subpiece : Expression := .Var ⟨base_name, base_size, false⟩
  if sub_register.lsb > 0 then
    .BinOp .Piece
      (.BinOp .Piece
        (.Subpiece (sub_lsb + sub_size) (base_size - (sub_lsb + sub_size)) base_subpiece)
        e)
      (.Subpiece 0 sub_lsb base_subpiece)
  else
    .BinOp .Piece
      (.Subpiece sub_size (base_size - sub_size) base_subpiece)
      e

/-- This function either wraps the current expression into a zero extension
expression (if the next instruction is a zero extension of the currently
overwritten sub register), or a piece expression (if a sub register is
overwritten without zero extension), or does nothing. The Rust `unwrap` calls
on the option arguments are modelled as `none`. -/
def Expression.piece_zero_extend_or_none (e : Expression) (zero_extend : Bool)
    (output_base_register : Option RegisterProperties)
    (output_size : Option Nat)
    (sub_register : Option RegisterProperties) : Option Expression :=
  if zero_extend then
    match output_size with
    | some size => some (.Cast .IntZExt size e)
    | none => none
  else if output_base_register.isSome then
    match output_base_register, sub_register with
    | some base, some sub => some (e.piece_two_expressions_together base sub)
    | _, _ => none
  else some e

/-- The lookahead test of the normalizer: the peeked term is an assignment to
the register currently being defined whose expression is a zero-extension cast
of a bare variable. -/
def peek_is_zero_extension_flag (peeked : Option (Term Def)) (output_name : String) : Bool :=
  match peeked with
  | some peek =>
      match peek.term with
      | .Assign var value =>
          if output_name = var.name then value.check_for_zero_extension else false
      | _ => false
  | none => false

/-- The sub-register normalization pass for one term: rewrites the output
variable to its base register, canonicalizes every sub-register read in the
expression to a `Subpiece` of its base register, and then pieces, zero-extends
or leaves the expression, using one term of lookahead. Returns the rewritten
expression together with the final output variable; `none` models a panic on a
missing catalog entry. -/
def Expression.process_sub_registers_if_necessary (e : Expression)
    (output : Option Variable) (register_map : RegisterMap)
    (peeked : Option (Term Def)) : Option (Expression × Option Variable) :=
  let locals : Option (Bool × Option RegisterProperties × Option Nat ×
      Option RegisterProperties × Option Variable) :=
    match output with
    | none => some (false, none, none, none, none)
    | some output_value =>
        match rmLookup register_map output_value.name with
        | none => some (false, none, none, none, some output_value)
        | some register =>
            if register.register ≠ register.base_register then
              match rmLookup register_map register.base_register with
              | none => none
              | some base =>
                  let output_value' : Variable :=
                    { name := register.base_register
                      size := base.size
                      is_temp := output_value.is_temp }
                  some (peek_is_zero_extension_flag peeked output_value'.name,
                    some base, some base.size, some register, some output_value')
            else some (false, none, none, none, some output_value)
  match locals with
  | none => none
  | some (peek_is_zero_extension, output_base_register, output_base_size,
      output_sub_register, output') =>
      match e.check_for_sub_register register_map with
      | none => none
      | some e' =>
          match e'.piece_zero_extend_or_none peek_is_zero_extension
              output_base_register output_base_size output_sub_register with
          | none => none
          | some e'' => some (e'', output')

/-- The binary operations whose result is a boolean of size 1, as listed in
the size-typing rules of the spec (§4.1). -/
def boolResultBinOps : List BinOpType :=
  [.IntEqual, .IntNotEqual, .IntLess, .IntSLess, .IntLessEqual, .IntSLessEqual,
   .IntCarry, .IntSCarry, .IntSBorrow, .BoolXOr, .BoolOr, .BoolAnd, .FloatEqual,
   .FloatNotEqual, .FloatLess, .FloatLessEqual]

/-- The binary operations whose size rule reads the left operand (§4.1). -/
def lhsSizedBinOps : List BinOpType :=
  [.IntAdd, .IntSub, .IntAnd, .IntOr, .IntXOr, .IntLeft, .IntRight, .IntSRight,
   .IntMult, .IntDiv, .IntRem, .IntSDiv, .IntSRem, .FloatAdd, .FloatSub,
   .FloatMult, .FloatDiv]

/-- The identity-eliminating operations of the simplifier (§4.2). -/
def identityBinOps : List BinOpType := [.BoolAnd, .BoolOr, .IntAnd, .IntOr]

/-- The xor-like operations the simplifier collapses to zero (§4.2). -/
def xorLikeBinOps : List BinOpType := [.BoolXOr, .IntXOr]

/-- The reflexively-true comparisons of the simplifier (§4.2). -/
def eqLikeBinOps : List BinOpType := [.IntEqual, .IntLessEqual, .IntSLessEqual]

/-- The reflexively-false comparisons of the simplifier (§4.2). -/
def neqLikeBinOps : List BinOpType := [.IntNotEqual, .IntLess, .IntSLess]

/-- Modelled from the spec (§4.1, §7): the well-typedness precondition on
expressions. Binary operations whose size rule reads the left operand must
have equal-sized operands, and the boolean connectives must have operands of
the boolean size 1. -/
def Expression.well_typed : Expression → Bool
  | .Var _ => true
  | .Const _ => true
  | .Unknown _ _ => true
  | .Subpiece _ _ arg => arg.well_typed
  | .Cast _ _ arg => arg.well_typed
  | .UnOp _ arg => arg.well_typed
  | .BinOp op lhs rhs =>
      lhs.well_typed && rhs.well_typed &&
      (match op with
       | .IntAdd | .IntSub | .IntAnd | .IntOr | .IntXOr | .IntLeft | .IntRight
       | .IntSRight | .IntMult | .IntDiv | .IntRem | .IntSDiv | .IntSRem
       | .FloatAdd | .FloatSub | .FloatMult | .FloatDiv =>
           lhs.bytesize == rhs.bytesize
       | .BoolAnd | .BoolOr | .BoolXOr =>
           lhs.bytesize == 1 && rhs.bytesize == 1
       | _ => true)

/-- Every `Var` node of the expression names either a base register of the
catalog (its entry is its own base register) or a temporary (a name absent
from the catalog). This is the normalization invariant of the spec (§6). -/
def normalizedVars (register_map : RegisterMap) : Expression → Bool
  | .Var var =>
      match rmLookup register_map var.name with
      | some register => register.register == register.base_register
      | none => true
  | .Const _ => true
  | .Unknown _ _ => true
  | .BinOp _ lhs rhs => normalizedVars register_map lhs && normalizedVars register_map rhs
  | .UnOp _ arg => normalizedVars register_map arg
  | .Cast _ _ arg => normalizedVars register_map arg
  | .Subpiece _ _ arg => normalizedVars register_map arg

/-- A complete register catalog: every entry is keyed by its own register
name, and the base register of every entry is present in the catalog and is
its own base register. -/
def rmWellformed (register_map : RegisterMap) : Bool :=
  register_map.all (fun p => p.2.register == p.1) &&
  register_map.all (fun p =>
    match rmLookup register_map p.2.base_register with
    | some rb => rb.register == rb.base_register
    | none => false)

/-- The lookahead condition as the spec states it (§4.3 step 2): the next term
exists and is an assignment to the register being defined whose expression is
a zero-extension cast of a bare variable reference. -/
def peek_requests_zero_extension (peeked : Option (Term Def)) (output_name : String) : Prop :=
  ∃ peek var value, peeked = some peek ∧ peek.term = Def.Assign var value ∧
    var.name = output_name ∧
    ∃ sz u, value = Expression.Cast CastOpType.IntZExt sz (Expression.Var u)

/-! Helper lemmas. -/

theorem bitsToBytes_bytesToBits (n : Nat) : bitsToBytes (bytesToBits n) = n := by
  simp only [bitsToBytes, bytesToBits]
  omega

@[simp] theorem Bitvector.width_zero (w : Nat) : (Bitvector.zero w).width = w := rfl

@[simp] theorem Bitvector.width_one (w : Nat) : (Bitvector.one w).width = w := rfl

/-- C8: `bytesize` returns 1 for the boolean-result binary operations and the
float-NaN unary operation, the sum of the operand sizes for `Piece`, the lhs
size for the remaining binary operations, the argument size for the remaining
unary operations, the explicit size field for `Cast`, `Unknown` and
`Subpiece`, the variable size for `Var` and the bitvector width (in bytes)
for `Const`. -/
theorem bytesize_cases :
    (∀ v : Variable, (Expression.Var v).bytesize = v.size) ∧
    (∀ bv : Bitvector, (Expression.Const bv).bytesize = bitsToBytes bv.width) ∧
    (∀ (op : BinOpType) (l r : Expression), (Expression.BinOp op l r).bytesize =
      if op = .Piece then l.bytesize + r.bytesize
      else if op ∈ boolResultBinOps then 1
      else l.bytesize) ∧
    (∀ (op : UnOpType) (a : Expression), (Expression.UnOp op a).bytesize =
      if op = .FloatNaN then 1 else a.bytesize) ∧
    (∀ (op : CastOpType) (s : Nat) (a : Expression),
      (Expression.Cast op s a).bytesize = s) ∧
    (∀ (d : String) (s : Nat), (Expression.Unknown d s).bytesize = s) ∧
    (∀ (lb s : Nat) (a : Expression), (Expression.Subpiece lb s a).bytesize = s) := by
  refine ⟨fun v => rfl, fun bv => rfl, ?_, ?_, fun _ _ _ => rfl, fun _ _ => rfl,
    fun _ _ _ => rfl⟩
  · intro op l r
    cases op <;> simp [Expression.bytesize, boolResultBinOps]
  · intro op a
    cases op <;> simp [Expression.bytesize]

/-- C7: `substitute_trivial_operations` applies exactly the stated rewrites:
full-width `Subpiece` from byte zero and same-size sign/zero extensions
collapse to their argument, and a binary operation on structurally identical
simplified operands collapses to the operand (identity operations), to the
zero constant of the operand width (xor-like), to the one constant of width 1
(reflexively true comparisons) or the zero constant of width 1 (reflexively
false comparisons); every other node is left unchanged apart from the
recursive rewriting of children. -/
theorem substitute_trivial_operations_cases :
    (∀ v : Variable, (Expression.Var v).substitute_trivial_operations = .Var v) ∧
    (∀ bv : Bitvector, (Expression.Const bv).substitute_trivial_operations = .Const bv) ∧
    (∀ (d : String) (s : Nat),
      (Expression.Unknown d s).substitute_trivial_operations = .Unknown d s) ∧
    (∀ (op : UnOpType) (a : Expression),
      (Expression.UnOp op a).substitute_trivial_operations =
        .UnOp op a.substitute_trivial_operations) ∧
    (∀ (lb s : Nat) (a : Expression),
      (Expression.Subpiece lb s a).substitute_trivial_operations =
        if lb = 0 ∧ s = a.substitute_trivial_operations.bytesize
        then a.substitute_trivial_operations
        else .Subpiece lb s a.substitute_trivial_operations) ∧
    (∀ (op : CastOpType) (s : Nat) (a : Expression),
      (Expression.Cast op s a).substitute_trivial_operations =
        if (op = .IntSExt ∨ op = .IntZExt) ∧ s = a.substitute_trivial_operations.bytesize
        then a.substitute_trivial_operations
        else .Cast op s a.substitute_trivial_operations) ∧
    (∀ (op : BinOpType) (l r : Expression),
      (Expression.BinOp op l r).substitute_trivial_operations =
        if l.substitute_trivial_operations = r.substitute_trivial_operations then
          if op ∈ identityBinOps then l.substitute_trivial_operations
          else if op ∈ xorLikeBinOps then
            .Const (Bitvector.zero (bytesToBits l.substitute_trivial_operations.bytesize))
          else if op ∈ eqLikeBinOps then .Const (Bitvector.one (bytesToBits 1))
          else if op ∈ neqLikeBinOps then .Const (Bitvector.zero (bytesToBits 1))
          else .BinOp op l.substitute_trivial_operations r.substitute_trivial_operations
        else .BinOp op l.substitute_trivial_operations r.substitute_trivial_operations) := by
  refine ⟨fun v => rfl, fun bv => rfl, fun d s => rfl, fun op a => rfl, fun lb s a => rfl,
    fun op s a => rfl, ?_⟩
  intro op l r
  by_cases h : l.substitute_trivial_operations = r.substitute_trivial_operations <;>
    cases op <;>
      simp [Expression.substitute_trivial_operations, h, identityBinOps, xorLikeBinOps,
        eqLikeBinOps, neqLikeBinOps]

/-- Helper: the single bottom-up pass of the simplifier is idempotent, because
children are always simplified before the rewrite test at their parent, so
every rewrite installs an already-simplified subtree. -/
theorem substitute_idem_helper (e : Expression) :
    e.substitute_trivial_operations.substitute_trivial_operations =
      e.substitute_trivial_operations := by
  induction e with
  | Var v => rfl
  | Const c => rfl
  | Unknown d s => rfl
  | UnOp op arg ih =>
      simp [Expression.substitute_trivial_operations, ih]
  | Subpiece lb s arg ih =>
      by_cases h : lb = 0 ∧ s = arg.substitute_trivial_operations.bytesize <;>
        simp [Expression.substitute_trivial_operations, h, ih]
  | Cast op s arg ih =>
      by_cases h : (op = .IntSExt ∨ op = .IntZExt) ∧
          s = arg.substitute_trivial_operations.bytesize <;>
        simp [Expression.substitute_trivial_operations, h, ih]
  | BinOp op lhs rhs ihl ihr =>
      by_cases h : lhs.substitute_trivial_operations = rhs.substitute_trivial_operations <;>
        cases op <;>
          simp [Expression.substitute_trivial_operations, h, ihl, ihr]

/-- C4 (counterexample to the claim): there is no well-typed expression on
which `substitute_trivial_operations` fails to be idempotent; a repeated
invocation never changes the expression further. -/
theorem substitute_no_second_pass_needed :
    ¬ ∃ e : Expression, e.well_typed = true ∧
      e.substitute_trivial_operations.substitute_trivial_operations ≠
        e.substitute_trivial_operations := by
  rintro ⟨e, -, hne⟩
  exact hne (substitute_idem_helper e)

/-- C4 (amended): `substitute_trivial_operations` is a single local bottom-up
pass, and it is idempotent on every expression: since children are simplified
before the rewrite test at their parent, every rewrite installs an
already-simplified subtree, so a repeated invocation changes nothing. -/
theorem substitute_trivial_operations_idempotent (e : Expression) :
    e.substitute_trivial_operations.substitute_trivial_operations =
      e.substitute_trivial_operations :=
  substitute_idem_helper e

/-- C5: on well-typed expressions, `substitute_trivial_operations` preserves
`bytesize`. -/
theorem substitute_preserves_bytesize (e : Expression) (h : e.well_typed = true) :
    e.substitute_trivial_operations.bytesize = e.bytesize := by
  induction e with
  | Var v => rfl
  | Const c => rfl
  | Unknown d s => rfl
  | UnOp op arg ih =>
      have harg : arg.well_typed = true := by
        simpa [Expression.well_typed] using h
      cases op <;>
        simp [Expression.substitute_trivial_operations, Expression.bytesize, ih harg]
  | Subpiece lb s arg ih =>
      by_cases hc : lb = 0 ∧ s = arg.substitute_trivial_operations.bytesize
      · simp only [Expression.substitute_trivial_operations, if_pos hc, Expression.bytesize]
        exact hc.2.symm
      · simp [Expression.substitute_trivial_operations, hc, Expression.bytesize]
  | Cast op s arg ih =>
      by_cases hc : (op = .IntSExt ∨ op = .IntZExt) ∧
          s = arg.substitute_trivial_operations.bytesize
      · simp only [Expression.substitute_trivial_operations, if_pos hc, Expression.bytesize]
        exact hc.2.symm
      · simp [Expression.substitute_trivial_operations, hc, Expression.bytesize]
  | BinOp op lhs rhs ihl ihr =>
      simp only [Expression.well_typed, Bool.and_eq_true] at h
      obtain ⟨⟨hl, hr⟩, hop⟩ := h
      have el := ihl hl
      have er := ihr hr
      by_cases hc : lhs.substitute_trivial_operations = rhs.substitute_trivial_operations <;>
        cases op <;>
          simp_all [Expression.substitute_trivial_operations, Expression.bytesize,
            bitsToBytes_bytesToBits]

/-- C5 witness: a concrete well-typed expression on which the preservation
theorem applies. -/
theorem substitute_preserves_bytesize_witness :
    (Expression.BinOp .IntAdd (.Var ⟨"EAX", 4, false⟩)
        (.BinOp .IntXOr (.Var ⟨"EBX", 4, false⟩) (.Var ⟨"EBX", 4, false⟩))).well_typed
        = true ∧
    (Expression.BinOp .IntAdd (.Var ⟨"EAX", 4, false⟩)
        (.BinOp .IntXOr (.Var ⟨"EBX", 4, false⟩)
          (.Var ⟨"EBX", 4, false⟩))).substitute_trivial_operations.bytesize =
      (Expression.BinOp .IntAdd (.Var ⟨"EAX", 4, false⟩)
        (.BinOp .IntXOr (.Var ⟨"EBX", 4, false⟩) (.Var ⟨"EBX", 4, false⟩))).bytesize :=
  ⟨by decide, substitute_preserves_bytesize _ (by decide)⟩

/-- C6: when the incoming expression has the declared size of the overwritten
sub-register and the catalog geometry fits inside the base register, the
expression rebuilt for the base register (the `Piece` reconstruction when no
zero extension is pending, and the zero-extension `Cast` when one is) has
exactly the byte size of the base register. -/
theorem rebuilt_expression_bytesize (e : Expression) (base sub : RegisterProperties)
    (hsize : e.bytesize = sub.size) (hfit : sub.lsb + sub.size ≤ base.size) :
    Option.map Expression.bytesize
        (e.piece_zero_extend_or_none false (some base) (some base.size) (some sub)) =
      some base.size ∧
    Option.map Expression.bytesize
        (e.piece_zero_extend_or_none true (some base) (some base.size) (some sub)) =
      some base.size := by
  constructor
  · by_cases h : sub.lsb > 0 <;>
      · simp [Expression.piece_zero_extend_or_none,
          Expression.piece_two_expressions_together, h, Expression.bytesize, hsize]
        omega
  · simp [Expression.piece_zero_extend_or_none, Expression.bytesize]

/-- C6 witness: a concrete sub-register write (the one-byte register AH at
offset 1 inside the four-byte register EAX) whose rebuilt expressions have the
base register size. -/
theorem rebuilt_expression_bytesize_witness :
    Option.map Expression.bytesize
        ((Expression.Const ⟨8, 5⟩).piece_zero_extend_or_none false
          (some ⟨"EAX", "EAX", 4, 0⟩) (some 4) (some ⟨"AH", "EAX", 1, 1⟩)) = some 4 ∧
    Option.map Expression.bytesize
        ((Expression.Const ⟨8, 5⟩).piece_zero_extend_or_none true
          (some ⟨"EAX", "EAX", 4, 0⟩) (some 4) (some ⟨"AH", "EAX", 1, 1⟩)) = some 4 :=
  rebuilt_expression_bytesize (Expression.Const ⟨8, 5⟩) ⟨"EAX", "EAX", 4, 0⟩
    ⟨"AH", "EAX", 1, 1⟩ (by decide) (by decide)

/-- C9 (counterexample to the claim): with a catalog holding the sub-register
AX but not its base register EAX, the normalizer does not return any reported
error value: it hits the `unwrap` panic of the source, modelled as `none`. -/
theorem missing_base_register_aborts :
    Expression.process_sub_registers_if_necessary (.Const ⟨16, 0⟩)
        (some ⟨"AX", 2, false⟩) [("AX", ⟨"AX", "EAX", 2, 0⟩)] none = none := by
  rfl

/-- Helper: a missing base-register catalog entry for a sub-register output
makes the whole pass panic, modelled as `none`. -/
theorem process_missing_base_aux (register_map : RegisterMap) (e : Expression)
    (v : Variable) (peeked : Option (Term Def)) (r : RegisterProperties)
    (hv : rmLookup register_map v.name = some r)
    (hsub : r.register ≠ r.base_register)
    (hbase : rmLookup register_map r.base_register = none) :
    Expression.process_sub_registers_if_necessary e (some v) register_map peeked = none := by
  simp only [Expression.process_sub_registers_if_necessary, hv, hsub, hbase, ne_eq,
    not_false_eq_true, if_true]

/-- C9 (amended): when the output names a sub-register whose base register is
absent from the catalog, normalization panics (an unrecoverable abort on
`unwrap`, modelled as `none`); in particular it never continues normalizing
with a partial register geometry. -/
theorem process_missing_base_register (register_map : RegisterMap) (e : Expression)
    (v : Variable) (peeked : Option (Term Def)) (r : RegisterProperties)
    (hv : rmLookup register_map v.name = some r)
    (hsub : r.register ≠ r.base_register)
    (hbase : rmLookup register_map r.base_register = none) :
    Expression.process_sub_registers_if_necessary e (some v) register_map peeked = none :=
  process_missing_base_aux register_map e v peeked r hv hsub hbase

/-- C9 witness for the amended statement: the concrete catalog of the
counterexample, with an arbitrary expression and no lookahead. -/
theorem process_missing_base_register_witness :
    Expression.process_sub_registers_if_necessary (.Var ⟨"RT", 4, true⟩)
        (some ⟨"AX", 2, false⟩) [("AX", ⟨"AX", "EAX", 2, 0⟩)] none = none :=
  process_missing_base_register [("AX", ⟨"AX", "EAX", 2, 0⟩)] (.Var ⟨"RT", 4, true⟩)
    ⟨"AX", 2, false⟩ none ⟨"AX", "EAX", 2, 0⟩ (by decide) (by decide) (by decide)

/-- Helper: the boolean zero-extension test of the source holds exactly on
`IntZExt` casts of bare variables. -/
theorem check_for_zero_extension_iff (e : Expression) :
    e.check_for_zero_extension = true ↔
      ∃ sz u, e = Expression.Cast CastOpType.IntZExt sz (Expression.Var u) := by
  cases e with
  | Cast op s arg =>
      cases op <;> cases arg <;>
        simp [Expression.check_for_zero_extension]
  | Var v => simp [Expression.check_for_zero_extension]
  | Const c => simp [Expression.check_for_zero_extension]
  | BinOp op l r => simp [Expression.check_for_zero_extension]
  | UnOp op a => simp [Expression.check_for_zero_extension]
  | Unknown d s => simp [Expression.check_for_zero_extension]
  | Subpiece lb s a => simp [Expression.check_for_zero_extension]

/-- Helper: the lookahead flag computed by the normalizer holds exactly under
the lookahead condition the spec states. -/
theorem peek_flag_iff (peeked : Option (Term Def)) (output_name : String) :
    peek_is_zero_extension_flag peeked output_name = true ↔
      peek_requests_zero_extension peeked output_name := by
  cases peeked with
  | none => simp [peek_is_zero_extension_flag, peek_requests_zero_extension]
  | some t =>
      obtain ⟨d⟩ := t
      cases d with
      | Assign var value =>
          by_cases hn : output_name = var.name
          · simp only [peek_is_zero_extension_flag, if_pos hn,
              peek_requests_zero_extension, check_for_zero_extension_iff,
              Option.some.injEq, Term.mk.injEq, Def.Assign.injEq]
            constructor
            · rintro ⟨sz, u, rfl⟩
              exact ⟨⟨.Assign var _⟩, var, _, rfl, rfl, hn.symm, sz, u, rfl⟩
            · rintro ⟨peek, var', value', hpeek, hterm, hname, sz, u, rfl⟩
              cases hpeek
              cases hterm
              exact ⟨sz, u, rfl⟩
          · simp only [peek_is_zero_extension_flag, if_neg hn,
              peek_requests_zero_extension, Bool.false_eq_true, false_iff]
            rintro ⟨peek, var', value', hpeek, hterm, hname, -⟩
            cases hpeek
            cases hterm
            exact hn hname.symm
      | Other =>
          simp only [peek_is_zero_extension_flag, peek_requests_zero_extension,
            Bool.false_eq_true, false_iff]
          rintro ⟨peek, var', value', hpeek, hterm, -⟩
          cases hpeek
          cases hterm

/-- Helper: full characterization of the normalizer on a term whose output is
a sub-register with its base register present in the catalog: the expression
is leaf-rewritten, then either zero-extension-wrapped (when the lookahead flag
is set) or pieced together with the untouched bytes of the base register, and
the output variable is renamed and resized to the base register. -/
theorem process_sub_output_characterization (register_map : RegisterMap)
    (e : Expression) (v : Variable) (peeked : Option (Term Def))
    (r base : RegisterProperties)
    (hv : rmLookup register_map v.name = some r)
    (hsub : r.register ≠ r.base_register)
    (hbase : rmLookup register_map r.base_register = some base) :
    Expression.process_sub_registers_if_necessary e (some v) register_map peeked =
      match e.check_for_sub_register register_map with
      | none => none
      | some e' =>
          if peek_is_zero_extension_flag peeked r.base_register
          then some (.Cast .IntZExt base.size e',
              some ⟨r.base_register, base.size, v.is_temp⟩)
          else some (e'.piece_two_expressions_together base r,
              some ⟨r.base_register, base.size, v.is_temp⟩) := by
  simp only [Expression.process_sub_registers_if_necessary, hv, hsub, ne_eq,
    not_false_eq_true, if_true, hbase]
  cases hE : e.check_for_sub_register register_map with
  | none => rfl
  | some e' =>
      cases hF : peek_is_zero_extension_flag peeked r.base_register <;>
        simp [hF, Expression.piece_zero_extend_or_none]

/-- A small concrete x86-style catalog used by the concrete witnesses: the
base register EAX of size 4 with sub-registers AX (size 2 at offset 0) and AH
(size 1 at offset 1). -/
def exampleRegisterMap : RegisterMap :=
  [("EAX", ⟨"EAX", "EAX", 4, 0⟩), ("AX", ⟨"AX", "EAX", 2, 0⟩), ("AH", ⟨"AH", "EAX", 1, 1⟩)]

/-- C3: on a term whose output is a sub-register with its base register in the
catalog, the normalizer marks zero extension pending exactly when the
lookahead term exists and is an assignment to the register being defined whose
expression is a zero-extension cast of a bare variable reference; in that case
the leaf-rewritten expression is wrapped in a `Cast` with operation `IntZExt`
to the full size of the base register — never a `Piece` — and otherwise the
`Piece` reconstruction is produced. -/
theorem process_zero_extension_exactly (register_map : RegisterMap) (e : Expression)
    (v : Variable) (peeked : Option (Term Def)) (r base : RegisterProperties)
    (e' : Expression)
    (hv : rmLookup register_map v.name = some r)
    (hsub : r.register ≠ r.base_register)
    (hbase : rmLookup register_map r.base_register = some base)
    (hchk : e.check_for_sub_register register_map = some e') :
    (peek_requests_zero_extension peeked r.base_register →
      Expression.process_sub_registers_if_necessary e (some v) register_map peeked =
        some (.Cast .IntZExt base.size e',
          some ⟨r.base_register, base.size, v.is_temp⟩)) ∧
    (¬ peek_requests_zero_extension peeked r.base_register →
      Expression.process_sub_registers_if_necessary e (some v) register_map peeked =
        some (e'.piece_two_expressions_together base r,
          some ⟨r.base_register, base.size, v.is_temp⟩)) := by
  rw [process_sub_output_characterization register_map e v peeked r base hv hsub hbase,
    hchk]
  constructor
  · intro hp
    have hF : peek_is_zero_extension_flag peeked r.base_register = true :=
      (peek_flag_iff peeked r.base_register).mpr hp
    simp [hF]
  · intro hp
    have hF : peek_is_zero_extension_flag peeked r.base_register = false := by
      rcases Bool.eq_false_or_eq_true (peek_is_zero_extension_flag peeked r.base_register)
        with hF | hF
      · exact absurd ((peek_flag_iff peeked r.base_register).mp hF) hp
      · exact hF
    simp [hF]

/-- C3 witness: assigning to AX followed by the lookahead `EAX = zext(AX)`. -/
theorem process_zero_extension_exactly_witness :
    (peek_requests_zero_extension
        (some ⟨.Assign ⟨"EAX", 4, false⟩ (.Cast .IntZExt 4 (.Var ⟨"AX", 2, false⟩))⟩)
        "EAX" →
      Expression.process_sub_registers_if_necessary (.Const ⟨16, 5⟩)
          (some ⟨"AX", 2, false⟩) exampleRegisterMap
          (some ⟨.Assign ⟨"EAX", 4, false⟩ (.Cast .IntZExt 4 (.Var ⟨"AX", 2, false⟩))⟩) =
        some (.Cast .IntZExt 4 (.Const ⟨16, 5⟩), some ⟨"EAX", 4, false⟩)) ∧
    (¬ peek_requests_zero_extension
        (some ⟨.Assign ⟨"EAX", 4, false⟩ (.Cast .IntZExt 4 (.Var ⟨"AX", 2, false⟩))⟩)
        "EAX" →
      Expression.process_sub_registers_if_necessary (.Const ⟨16, 5⟩)
          (some ⟨"AX", 2, false⟩) exampleRegisterMap
          (some ⟨.Assign ⟨"EAX", 4, false⟩ (.Cast .IntZExt 4 (.Var ⟨"AX", 2, false⟩))⟩) =
        some ((Expression.Const ⟨16, 5⟩).piece_two_expressions_together
          ⟨"EAX", "EAX", 4, 0⟩ ⟨"AX", "EAX", 2, 0⟩, some ⟨"EAX", 4, false⟩)) :=
  process_zero_extension_exactly exampleRegisterMap (.Const ⟨16, 5⟩) ⟨"AX", 2, false⟩
    (some ⟨.Assign ⟨"EAX", 4, false⟩ (.Cast .IntZExt 4 (.Var ⟨"AX", 2, false⟩))⟩)
    ⟨"AX", "EAX", 2, 0⟩ ⟨"EAX", "EAX", 4, 0⟩ (.Const ⟨16, 5⟩)
    (by decide) (by decide) (by decide) (by rfl)

/-- C2: on a term whose output is a sub-register (base register present, no
zero extension pending) the normalizer rewrites the leaf-rewritten expression
to the two-segment `Piece` shape when the sub-register offset is zero and to
the nested three-segment shape when the offset is positive, with exactly the
stated offsets and sizes. -/
theorem process_sub_register_piece_shape (register_map : RegisterMap) (e : Expression)
    (v : Variable) (peeked : Option (Term Def)) (r base : RegisterProperties)
    (e' : Expression)
    (hv : rmLookup register_map v.name = some r)
    (hsub : r.register ≠ r.base_register)
    (hbase : rmLookup register_map r.base_register = some base)
    (hchk : e.check_for_sub_register register_map = some e')
    (hnp : ¬ peek_requests_zero_extension peeked r.base_register) :
    (r.lsb = 0 →
      Expression.process_sub_registers_if_necessary e (some v) register_map peeked =
        some (.BinOp .Piece
            (.Subpiece r.size (base.size - r.size) (.Var ⟨base.register, base.size, false⟩))
            e',
          some ⟨r.base_register, base.size, v.is_temp⟩)) ∧
    (r.lsb > 0 →
      Expression.process_sub_registers_if_necessary e (some v) register_map peeked =
        some (.BinOp .Piece
            (.BinOp .Piece
              (.Subpiece (r.lsb + r.size) (base.size - (r.lsb + r.size))
                (.Var ⟨base.register, base.size, false⟩))
              e')
            (.Subpiece 0 r.lsb (.Var ⟨base.register, base.size, false⟩)),
          some ⟨r.base_register, base.size, v.is_temp⟩)) := by
  have hmain := (process_zero_extension_exactly register_map e v peeked r base e'
    hv hsub hbase hchk).2 hnp
  constructor
  · intro hlsb
    rw [hmain]
    simp [Expression.piece_two_expressions_together, hlsb]
  · intro hlsb
    rw [hmain]
    simp [Expression.piece_two_expressions_together, hlsb]

/-- C2 witness: a write to the offset-one sub-register AH with no pending
zero extension. -/
theorem process_sub_register_piece_shape_witness :
    ((1 : Nat) = 0 →
      Expression.process_sub_registers_if_necessary (.Const ⟨8, 5⟩)
          (some ⟨"AH", 1, false⟩) exampleRegisterMap none =
        some (.BinOp .Piece
            (.Subpiece 1 (4 - 1) (.Var ⟨"EAX", 4, false⟩)) (.Const ⟨8, 5⟩),
          some ⟨"EAX", 4, false⟩)) ∧
    ((1 : Nat) > 0 →
      Expression.process_sub_registers_if_necessary (.Const ⟨8, 5⟩)
          (some ⟨"AH", 1, false⟩) exampleRegisterMap none =
        some (.BinOp .Piece
            (.BinOp .Piece
              (.Subpiece (1 + 1) (4 - (1 + 1)) (.Var ⟨"EAX", 4, false⟩))
              (.Const ⟨8, 5⟩))
            (.Subpiece 0 1 (.Var ⟨"EAX", 4, false⟩)),
          some ⟨"EAX", 4, false⟩)) :=
  process_sub_register_piece_shape exampleRegisterMap (.Const ⟨8, 5⟩) ⟨"AH", 1, false⟩
    none ⟨"AH", "EAX", 1, 1⟩ ⟨"EAX", "EAX", 4, 0⟩ (.Const ⟨8, 5⟩)
    (by decide) (by decide) (by decide) (by rfl)
    (by rintro ⟨peek, var', value', hpeek, -⟩; cases hpeek)

/-- Helper: a successful catalog lookup returns an entry of the list. -/
theorem rmLookup_mem (register_map : RegisterMap) (n : String) (r : RegisterProperties)
    (h : rmLookup register_map n = some r) : (n, r) ∈ register_map := by
  induction register_map with
  | nil => exact absurd h (by simp [rmLookup])
  | cons p rest ih =>
      obtain ⟨k, rp⟩ := p
      by_cases hk : k = n
      · subst hk
        rw [rmLookup, if_pos rfl] at h
        injection h with h
        subst h
        exact List.mem_cons_self _ _
      · rw [rmLookup, if_neg hk] at h
        exact List.mem_cons_of_mem _ (ih h)

/-- Helper: in a well-formed catalog, every entry is keyed by its own name. -/
theorem rmWellformed_key (register_map : RegisterMap)
    (hwf : rmWellformed register_map = true) (n : String) (r : RegisterProperties)
    (h : rmLookup register_map n = some r) : r.register = n := by
  simp only [rmWellformed, Bool.and_eq_true, List.all_eq_true] at hwf
  have := hwf.1 (n, r) (rmLookup_mem register_map n r h)
  simpa using this

/-- Helper: in a well-formed catalog, the base register of every entry found
by lookup is itself present and is its own base register. -/
theorem rmWellformed_base (register_map : RegisterMap)
    (hwf : rmWellformed register_map = true) (n : String) (r : RegisterProperties)
    (h : rmLookup register_map n = some r) :
    ∃ rb, rmLookup register_map r.base_register = some rb ∧
      rb.register = rb.base_register := by
  simp only [rmWellformed, Bool.and_eq_true, List.all_eq_true] at hwf
  have h2 := hwf.2 (n, r) (rmLookup_mem register_map n r h)
  cases hE : rmLookup register_map r.base_register with
  | none => rw [hE] at h2; exact absurd h2 (by simp)
  | some rb =>
      rw [hE] at h2
      exact ⟨rb, rfl, by simpa using h2⟩

/-- Helper: the leaf rewrite of `check_for_sub_register` establishes the
normalization invariant on every `Var` of its result, for a well-formed
catalog. -/
theorem check_for_sub_register_normalizes (register_map : RegisterMap)
    (hwf : rmWellformed register_map = true) :
    ∀ e e' : Expression, e.check_for_sub_register register_map = some e' →
      normalizedVars register_map e' = true := by
  intro e
  induction e with
  | Var v =>
      intro e' h
      simp only [Expression.check_for_sub_register] at h
      cases hv : rmLookup register_map v.name with
      | none =>
          simp only [hv] at h
          injection h with h
          subst h
          simp [normalizedVars, hv]
      | some r =>
          simp only [hv] at h
          by_cases hb : v.name ≠ r.base_register
          · rw [if_pos hb] at h
            simp only [Expression.create_subpiece_from_sub_register] at h
            cases hbase : rmLookup register_map r.base_register with
            | none =>
                simp only [hbase] at h
                exact Option.noConfusion h
            | some bp =>
                simp only [hbase] at h
                injection h with h
                subst h
                obtain ⟨rb, hrb, hrbeq⟩ := rmWellformed_base register_map hwf v.name r hv
                rw [hbase] at hrb
                injection hrb with hrb
                subst hrb
                simp [normalizedVars, hbase, hrbeq]
          · rw [if_neg hb] at h
            injection h with h
            subst h
            have hkey := rmWellformed_key register_map hwf v.name r hv
            have hbn : v.name = r.base_register := not_ne_iff.mp hb
            simp only [normalizedVars, hv]
            rw [hkey, hbn]
            simp
  | Const c =>
      intro e' h
      injection h with h
      subst h
      simp [normalizedVars]
  | Unknown d s =>
      intro e' h
      injection h with h
      subst h
      simp [normalizedVars]
  | BinOp op l r ihl ihr =>
      intro e' h
      simp only [Expression.check_for_sub_register] at h
      cases hL : l.check_for_sub_register register_map with
      | none =>
          simp only [hL] at h
          exact Option.noConfusion h
      | some l' =>
          cases hR : r.check_for_sub_register register_map with
          | none =>
              simp only [hL, hR] at h
              exact Option.noConfusion h
          | some r' =>
              simp only [hL, hR] at h
              injection h with h
              subst h
              simp [normalizedVars, ihl l' hL, ihr r' hR]
  | UnOp op a iha =>
      intro e' h
      simp only [Expression.check_for_sub_register] at h
      obtain ⟨a', hA, he⟩ := Option.map_eq_some'.mp h
      subst he
      simp [normalizedVars, iha a' hA]
  | Cast op s a iha =>
      intro e' h
      simp only [Expression.check_for_sub_register] at h
      obtain ⟨a', hA, he⟩ := Option.map_eq_some'.mp h
      subst he
      simp [normalizedVars, iha a' hA]
  | Subpiece lb s a iha =>
      intro e' h
      simp only [Expression.check_for_sub_register] at h
      obtain ⟨a', hA, he⟩ := Option.map_eq_some'.mp h
      subst he
      simp [normalizedVars, iha a' hA]

/-- Helper: on a term whose output is absent, a temporary, or already a base
register, the normalizer only applies the leaf rewrite and keeps the output. -/
theorem process_no_sub_output (register_map : RegisterMap) (e : Expression)
    (output : Option Variable) (peeked : Option (Term Def))
    (h : output = none ∨
      (∃ v, output = some v ∧ rmLookup register_map v.name = none) ∨
      (∃ v r, output = some v ∧ rmLookup register_map v.name = some r ∧
        r.register = r.base_register)) :
    Expression.process_sub_registers_if_necessary e output register_map peeked =
      Option.map (fun e0 => (e0, output)) (e.check_for_sub_register register_map) := by
  have done : ∀ out0 : Option Variable,
      (match e.check_for_sub_register register_map with
        | none => none
        | some e' =>
            match e'.piece_zero_extend_or_none false none none none with
            | none => none
            | some e'' => some (e'', out0)) =
        Option.map (fun e0 => (e0, out0)) (e.check_for_sub_register register_map) := by
    intro out0
    cases hE : e.check_for_sub_register register_map with
    | none => rfl
    | some e0 => simp [Expression.piece_zero_extend_or_none]
  rcases h with rfl | ⟨v, rfl, hv⟩ | ⟨v, r, rfl, hv, hrr⟩
  · simp only [Expression.process_sub_registers_if_necessary]
    exact done none
  · simp only [Expression.process_sub_registers_if_necessary, hv]
    exact done (some v)
  · simp only [Expression.process_sub_registers_if_necessary, hv, hrr, ne_eq,
      not_true_eq_false, if_false]
    exact done (some v)

/-- C10: on a term whose output is absent, or a temporary (name not in the
catalog), or already a base register, the normalizer keeps the output variable
untouched, never inspects the lookahead term (the right-hand side does not
depend on it), and adds no `Cast` or `Piece` wrapper: the expression is
changed only by the leaf rewrite of sub-register `Var` nodes. -/
theorem process_frame_no_sub_output (register_map : RegisterMap) (e : Expression)
    (output : Option Variable) (peeked : Option (Term Def))
    (h : output = none ∨
      (∃ v, output = some v ∧ rmLookup register_map v.name = none) ∨
      (∃ v r, output = some v ∧ rmLookup register_map v.name = some r ∧
        r.register = r.base_register)) :
    Expression.process_sub_registers_if_necessary e output register_map peeked =
      Option.map (fun e0 => (e0, output)) (e.check_for_sub_register register_map) :=
  process_no_sub_output register_map e output peeked h

/-- C10 witness: a term writing the temporary T1 while reading the
sub-register AX; only the read is rewritten and the output is kept. -/
theorem process_frame_no_sub_output_witness :
    Expression.process_sub_registers_if_necessary (.Var ⟨"AX", 2, false⟩)
        (some ⟨"T1", 4, true⟩) exampleRegisterMap
        (some ⟨.Assign ⟨"EAX", 4, false⟩ (.Cast .IntZExt 4 (.Var ⟨"AX", 2, false⟩))⟩) =
      Option.map (fun e0 => (e0, some (⟨"T1", 4, true⟩ : Variable)))
        ((Expression.Var ⟨"AX", 2, false⟩).check_for_sub_register exampleRegisterMap) :=
  process_frame_no_sub_output exampleRegisterMap (.Var ⟨"AX", 2, false⟩)
    (some ⟨"T1", 4, true⟩)
    (some ⟨.Assign ⟨"EAX", 4, false⟩ (.Cast .IntZExt 4 (.Var ⟨"AX", 2, false⟩))⟩)
    (Or.inr (Or.inl ⟨⟨"T1", 4, true⟩, rfl, by decide⟩))

/-- C1: for every complete (well-formed) register catalog and every processed
term, the expression produced by the normalizer satisfies the invariant that
each of its `Var` nodes names either a base register or a temporary; no
sub-register view remains. -/
theorem process_sub_registers_normalizes (register_map : RegisterMap) (e : Expression)
    (output : Option Variable) (peeked : Option (Term Def)) (e' : Expression)
    (out' : Option Variable)
    (hwf : rmWellformed register_map = true)
    (h : Expression.process_sub_registers_if_necessary e output register_map peeked =
      some (e', out')) :
    normalizedVars register_map e' = true := by
  have from_map : ∀ output0 : Option Variable,
      Option.map (fun e0 => (e0, output0)) (e.check_for_sub_register register_map) =
        some (e', out') → normalizedVars register_map e' = true := by
    intro output0 hmap
    obtain ⟨e0, hE, he⟩ := Option.map_eq_some'.mp hmap
    injection he with he1 he2
    subst he1
    exact check_for_sub_register_normalizes register_map hwf e e0 hE
  rcases output with _ | v
  · rw [process_no_sub_output register_map e none peeked (Or.inl rfl)] at h
    exact from_map none h
  · cases hv : rmLookup register_map v.name with
    | none =>
        rw [process_no_sub_output register_map e (some v) peeked
          (Or.inr (Or.inl ⟨v, rfl, hv⟩))] at h
        exact from_map (some v) h
    | some r =>
        by_cases hrr : r.register = r.base_register
        · rw [process_no_sub_output register_map e (some v) peeked
            (Or.inr (Or.inr ⟨v, r, rfl, hv, hrr⟩))] at h
          exact from_map (some v) h
        · cases hbase : rmLookup register_map r.base_register with
          | none =>
              rw [process_missing_base_aux register_map e v peeked r hv hrr hbase] at h
              exact Option.noConfusion h
          | some base =>
              rw [process_sub_output_characterization register_map e v peeked r base
                hv hrr hbase] at h
              cases hE : e.check_for_sub_register register_map with
              | none =>
                  simp only [hE] at h
                  exact Option.noConfusion h
              | some ec =>
                  simp only [hE] at h
                  have hn := check_for_sub_register_normalizes register_map hwf e ec hE
                  have hbkey : base.register = r.base_register :=
                    rmWellformed_key register_map hwf r.base_register base hbase
                  obtain ⟨rb, hrb, hrbeq⟩ :=
                    rmWellformed_base register_map hwf v.name r hv
                  rw [hbase] at hrb
                  injection hrb with hrb
                  subst hrb
                  have hvarnorm :
                      (match rmLookup register_map base.register with
                        | some rr => rr.register == rr.base_register
                        | none => true) = true := by
                    rw [hbkey, hbase]
                    simp [hrbeq]
                  cases hF : peek_is_zero_extension_flag peeked r.base_register
                  · rw [hF] at h
                    simp only [Bool.false_eq_true, if_false, Option.some.injEq,
                      Prod.mk.injEq] at h
                    obtain ⟨he1, -⟩ := h
                    subst he1
                    by_cases hlsb : r.lsb > 0 <;>
                      simp [Expression.piece_two_expressions_together, hlsb,
                        normalizedVars, hn, hvarnorm]
                  · rw [hF] at h
                    simp only [if_true, Option.some.injEq, Prod.mk.injEq] at h
                    obtain ⟨he1, -⟩ := h
                    subst he1
                    simp [normalizedVars, hn]

/-- C1 witness: reading the sub-register AH while writing the sub-register AX
in the concrete catalog; every `Var` in the produced expression names the base
register EAX. -/
theorem process_sub_registers_normalizes_witness :
    normalizedVars exampleRegisterMap
      (.BinOp .Piece
        (.Subpiece 2 2 (.Var ⟨"EAX", 4, false⟩))
        (.Subpiece 1 1 (.Var ⟨"EAX", 4, false⟩))) = true :=
  process_sub_registers_normalizes exampleRegisterMap (.Var ⟨"AH", 1, false⟩)
    (some ⟨"AX", 2, false⟩) none
    (.BinOp .Piece
      (.Subpiece 2 2 (.Var ⟨"EAX", 4, false⟩))
      (.Subpiece 1 1 (.Var ⟨"EAX", 4, false⟩)))
    (some ⟨"EAX", 4, false⟩) (by decide) (by rfl)

end CweChecker
